import Mathlib

/-!
Verification of the locally-authored procedural cores of the quantum teaching
notebooks: the TSP Ansatz Builder (`Solution_1-QuantumRouteOptimisation.ipynb`)
and the Ising variational loop (`cost_fn` / `cost_history_dict` / the
`b_list` sweep).  Gate emission is embedded as an explicit list of gate
records; the cost trace as an explicit state record threaded through each
evaluation call; the 2-qubit Ising Hamiltonian as a concrete 4×4 matrix with
exact rational entries built from Pauli factors exactly as
`Hamiltonian(J, b, observables)` does, with spectral and variational
statements taken over complex vectors.
-/

namespace QRoute

/-- A gate operation emitted by the Ansatz Builder.  `ry plus pIdx q` is a
y-rotation on qubit `q` by `+theta[pIdx]` (`plus = true`) or `-theta[pIdx]`
(`plus = false`); `measureAll` is the terminal full-register measurement
directive appended by `qc.measure_all()`. -/
inductive Gate where
  | x (q : ℕ)
  | ry (plus : Bool) (pIdx q : ℕ)
  | cz (a b : ℕ)
  | cx (ctrl tgt : ℕ)
  | cswap (c t u : ℕ)
  | measureAll
  deriving DecidableEq, Repr

/-- Gates appended by `base_circuit(QC, n, theta)`:
`QC.x(0); QC.ry(theta[1],1); QC.cz(0,1); QC.ry(-theta[1],1); QC.cx(1,0);
QC.cx(1,n); QC.cx(0,n+1)`. -/
def baseGates (n : ℕ) : List Gate :=
  [Gate.x 0, Gate.ry true 1 1, Gate.cz 0 1, Gate.ry false 1 1,
   Gate.cx 1 0, Gate.cx 1 n, Gate.cx 0 (n + 1)]

/-- Gates appended by `W_circuit(QC, m, q1n, theta)`: an X on `q1n`, then for
`j` in `range(q1n+1, q1n+m)` (written `j = q1n+t+1`, `t < m-1`) the block
`ry(theta[j-1], j); cz(j-1, j); ry(-theta[j-1], j)`, then for the same `j`
range the folding CNOTs `cx(j, j-1)`. -/
def wGates (m q1n : ℕ) : List Gate :=
  Gate.x q1n ::
    (((List.range (m - 1)).flatMap fun t =>
      [Gate.ry true (q1n + t) (q1n + t + 1), Gate.cz (q1n + t) (q1n + t + 1),
       Gate.ry false (q1n + t) (q1n + t + 1)]) ++
     ((List.range (m - 1)).map fun t => Gate.cx (q1n + t + 1) (q1n + t)))

/-- The W stage of the builder: `for i in range(3, n+1): W_circuit(qc, i, n*(i-1), phi)`. -/
def wStage (n : ℕ) : List Gate :=
  (List.range' 3 (n - 2)).flatMap fun i => wGates i (n * (i - 1))

/-- The controlled-swap stage triples `(k, v, p)` in emission order:
`for k in range(3, n+1): for v in range(1, k): for p in range(1, k)`. -/
def cswapStageTriples (n : ℕ) : List (ℕ × ℕ × ℕ) :=
  (List.range' 3 (n - 2)).flatMap fun k =>
    (List.range' 1 (k - 1)).flatMap fun v =>
      (List.range' 1 (k - 1)).map fun p => (k, v, p)

/-- The cswap emitted for stage `(k, v, p)`:
`qc.cswap(n*(k-1)+v-1, n*(p-1)+n-(n-k)-1, n*(p-1)+v-1)`. -/
def cswapGate (n k v p : ℕ) : Gate :=
  Gate.cswap (n * (k - 1) + v - 1) (n * (p - 1) + n - (n - k) - 1) (n * (p - 1) + v - 1)

/-- The controlled-swap stage of the builder, as the source's nested loops. -/
def swapGates (n : ℕ) : List Gate :=
  (List.range' 3 (n - 2)).flatMap fun k =>
    (List.range' 1 (k - 1)).flatMap fun v =>
      (List.range' 1 (k - 1)).map fun p => cswapGate n k v p

/-- The complete gate sequence produced by the Ansatz Builder for city count
`n` (declared register and parameter-vector size `n^2`):
`base_circuit`, then the W stage, then the cswap stage, then `measure_all`. -/
def ansatzGates (n : ℕ) : List Gate :=
  baseGates n ++ wStage n ++ swapGates n ++ [Gate.measureAll]

/-- The qubit operands a gate addresses (empty for the `measure_all`
directive, which touches every qubit of the register by construction). -/
def gateQubits : Gate → List ℕ
  | Gate.x q => [q]
  | Gate.ry _ _ q => [q]
  | Gate.cz a b => [a, b]
  | Gate.cx c t => [c, t]
  | Gate.cswap c t u => [c, t, u]
  | Gate.measureAll => []

/-- The parameter-vector indices a gate references. -/
def gateParams : Gate → List ℕ
  | Gate.ry _ p _ => [p]
  | _ => []

/-- Runtime admissibility of a single gate append, as the SDK enforces it:
all qubit operands in range, all pairwise distinct, and every referenced
parameter index within the declared parameter-vector length. -/
def gateOK (numQubits numParams : ℕ) (g : Gate) : Bool :=
  (gateQubits g).all (fun q => decide (q < numQubits)) &&
  (gateQubits g).Nodup &&
  (gateParams g).all (fun p => decide (p < numParams))

/-- Emission loop: append gates one at a time, failing at the first gate that
is rejected (out-of-range or repeated operand, or out-of-range parameter
index); the error records the prefix already emitted and the offending gate. -/
def emitLoop (numQubits numParams : ℕ) (acc : List Gate) :
    List Gate → Except (List Gate × Gate) (List Gate)
  | [] => Except.ok acc
  | g :: gs =>
    if gateOK numQubits numParams g then emitLoop numQubits numParams (acc ++ [g]) gs
    else Except.error (acc, g)

/-- The Ansatz Builder run end to end for city count `n`: the notebook sets
`num_qubits = n**2`, `phi = ParameterVector('phi', num_qubits)` and performs
no validation of `n` before emitting gates. -/
def buildAnsatz (n : ℕ) : Except (List Gate × Gate) (List Gate) :=
  emitLoop (n ^ 2) (n ^ 2) [] (ansatzGates n)

/-- All parameter-vector indices referenced by the built circuit, in order. -/
def paramRefs (n : ℕ) : List ℕ :=
  (ansatzGates n).flatMap gateParams

/-- The set of distinct free parameters the built circuit consumes. -/
def usedParams (n : ℕ) : Finset ℕ :=
  (paramRefs n).toFinset

/-- The parameter indices actually consumed, as closed-form intervals:
index `1` from the base block, plus, for each W stage `i ∈ [3, n]`, the
interval `[n*(i-1), n*(i-1)+i-2]`. -/
def targetParams (n : ℕ) : Finset ℕ :=
  insert 1 ((Finset.Icc 3 n).biUnion fun i => Finset.Ico (n * (i - 1)) (n * (i - 1) + (i - 1)))

lemma mem_wGates {m q1n : ℕ} {g : Gate} :
    g ∈ wGates m q1n ↔
      g = Gate.x q1n ∨
      (∃ t, t < m - 1 ∧
        (g = Gate.ry true (q1n + t) (q1n + t + 1) ∨ g = Gate.cz (q1n + t) (q1n + t + 1) ∨
         g = Gate.ry false (q1n + t) (q1n + t + 1))) ∨
      (∃ t, t < m - 1 ∧ g = Gate.cx (q1n + t + 1) (q1n + t)) := by
  simp [wGates, List.mem_flatMap, List.mem_range, List.mem_map, eq_comm]

lemma mem_wStage {n : ℕ} (hn : 2 ≤ n) {g : Gate} :
    g ∈ wStage n ↔ ∃ i, 3 ≤ i ∧ i ≤ n ∧ g ∈ wGates i (n * (i - 1)) := by
  simp only [wStage, List.mem_flatMap]
  constructor
  · rintro ⟨i, hi, hg⟩
    rw [List.mem_range'_1] at hi
    exact ⟨i, hi.1, by omega, hg⟩
  · rintro ⟨i, h3, hin, hg⟩
    exact ⟨i, List.mem_range'_1.mpr ⟨h3, by omega⟩, hg⟩

lemma mem_swapGates {n : ℕ} (hn : 2 ≤ n) {g : Gate} :
    g ∈ swapGates n ↔
      ∃ k v p, 3 ≤ k ∧ k ≤ n ∧ 1 ≤ v ∧ v < k ∧ 1 ≤ p ∧ p < k ∧ g = cswapGate n k v p := by
  simp only [swapGates, List.mem_flatMap, List.mem_map]
  constructor
  · rintro ⟨k, hk, v, hv, p, hp, hg⟩
    rw [List.mem_range'_1] at hk hv hp
    exact ⟨k, v, p, hk.1, by omega, hv.1, by omega, hp.1, by omega, hg.symm⟩
  · rintro ⟨k, v, p, hk3, hkn, hv1, hvk, hp1, hpk, rfl⟩
    exact ⟨k, List.mem_range'_1.mpr ⟨hk3, by omega⟩, v, List.mem_range'_1.mpr ⟨hv1, by omega⟩,
      p, List.mem_range'_1.mpr ⟨hp1, by omega⟩, rfl⟩

lemma mem_ansatzGates {n : ℕ} (hn : 2 ≤ n) {g : Gate} :
    g ∈ ansatzGates n ↔
      g ∈ baseGates n ∨
      (∃ i, 3 ≤ i ∧ i ≤ n ∧ g ∈ wGates i (n * (i - 1))) ∨
      (∃ k v p, 3 ≤ k ∧ k ≤ n ∧ 1 ≤ v ∧ v < k ∧ 1 ≤ p ∧ p < k ∧ g = cswapGate n k v p) ∨
      g = Gate.measureAll := by
  rw [ansatzGates]
  simp only [List.mem_append, List.mem_singleton, or_assoc]
  rw [mem_wStage hn, mem_swapGates hn]

/-- Arithmetic facts about `n*(n-1)` used throughout the index bounds. -/
lemma nsq_facts {n : ℕ} (hn : 2 ≤ n) : n * (n - 1) + n = n * n ∧ n ≤ n * (n - 1) := by
  obtain ⟨m, rfl⟩ : ∃ m, n = m + 2 := ⟨n - 2, by omega⟩
  have h1 : m + 2 - 1 = m + 1 := rfl
  constructor
  · rw [h1]; ring
  · rw [h1]
    have h := Nat.mul_le_mul_left (m + 2) (show 1 ≤ m + 1 by omega)
    omega

/-- Every gate the builder emits for `n ≥ 2` passes the runtime admissibility
check at register size `n^2` and parameter-vector length `n^2`. -/
lemma all_gates_ok {n : ℕ} (hn : 2 ≤ n) :
    ∀ g ∈ ansatzGates n, gateOK (n ^ 2) (n ^ 2) g = true := by
  obtain ⟨hB, hC⟩ := nsq_facts hn
  have hsq : n ^ 2 = n * n := pow_two n
  intro g hg
  rw [mem_ansatzGates hn] at hg
  rcases hg with hb | ⟨i, h3, hin, hw⟩ | ⟨k, v, p, hk3, hkn, hv1, hvk, hp1, hpk, rfl⟩ | rfl
  · simp only [baseGates, List.mem_cons, List.not_mem_nil, or_false] at hb
    rcases hb with rfl | rfl | rfl | rfl | rfl | rfl | rfl <;>
      simp [gateOK, gateQubits, gateParams, hsq] <;> omega
  · have hA : n * (i - 1) ≤ n * (n - 1) := Nat.mul_le_mul_left _ (by omega)
    rw [mem_wGates] at hw
    rcases hw with rfl | ⟨t, ht, (rfl | rfl | rfl)⟩ | ⟨t, ht, rfl⟩ <;>
      simp [gateOK, gateQubits, gateParams, hsq] <;> omega
  · have hA : n * (k - 1) ≤ n * (n - 1) := Nat.mul_le_mul_left _ (by omega)
    have hA2 : n * (p - 1) ≤ n * (n - 1) := Nat.mul_le_mul_left _ (by omega)
    have hM : n * (p - 1) + n ≤ n * (k - 1) := by
      have h1 : n * (p - 1 + 1) ≤ n * (k - 1) := Nat.mul_le_mul_left _ (by omega)
      rwa [Nat.mul_succ] at h1
    simp only [cswapGate, gateOK, gateQubits, gateParams, hsq]
    simp only [List.all_cons, List.all_nil, List.nodup_cons, List.mem_cons,
      List.not_mem_nil, List.nodup_nil, Bool.and_eq_true, decide_eq_true_eq]
    refine ⟨⟨⟨?_, ?_, ?_, trivial⟩, ?_⟩, trivial⟩
    · omega
    · omega
    · omega
    · constructor
      · simp only [or_false]
        push_neg
        constructor <;> omega
      · exact ⟨by simp only [or_false]; omega, by simp, by trivial⟩
  · simp [gateOK, gateQubits, gateParams]

/-- The emission loop succeeds, emitting every gate in order, whenever every
gate passes the admissibility check. -/
lemma emitLoop_ok (nq np : ℕ) :
    ∀ L acc, (∀ g ∈ L, gateOK nq np g = true) →
      emitLoop nq np acc L = Except.ok (acc ++ L) := by
  intro L
  induction L with
  | nil => intro acc _; simp [emitLoop]
  | cons g gs ih =>
    intro acc h
    rw [emitLoop, if_pos (h g (List.mem_cons_self g gs)), ih (acc ++ [g])
      (fun g' hg' => h g' (List.mem_cons_of_mem g hg'))]
    simp

/-- Unpacking the Boolean admissibility check into its three clauses. -/
lemma gateOK_spec {nq np : ℕ} {g : Gate} (h : gateOK nq np g = true) :
    (∀ q ∈ gateQubits g, q < nq) ∧ (gateQubits g).Nodup ∧ ∀ x ∈ gateParams g, x < np := by
  simp only [gateOK, Bool.and_eq_true, List.all_eq_true, decide_eq_true_eq] at h
  exact ⟨h.1.1, h.1.2, h.2⟩

lemma mem_usedParams {n : ℕ} (hn : 2 ≤ n) {x : ℕ} :
    x ∈ usedParams n ↔
      x = 1 ∨ ∃ i t, 3 ≤ i ∧ i ≤ n ∧ t < i - 1 ∧ x = n * (i - 1) + t := by
  have h0 : x ∈ usedParams n ↔ ∃ g ∈ ansatzGates n, x ∈ gateParams g := by
    simp [usedParams, paramRefs, List.mem_flatMap]
  rw [h0]
  constructor
  · rintro ⟨g, hg, hx⟩
    rw [mem_ansatzGates hn] at hg
    rcases hg with hb | ⟨i, h3, hin, hw⟩ | ⟨k, v, p, _, _, _, _, _, _, rfl⟩ | rfl
    · simp only [baseGates, List.mem_cons, List.not_mem_nil, or_false] at hb
      rcases hb with rfl | rfl | rfl | rfl | rfl | rfl | rfl <;>
        simp only [gateParams, List.mem_singleton, List.not_mem_nil] at hx <;>
        exact Or.inl hx
    · rw [mem_wGates] at hw
      rcases hw with rfl | ⟨t, ht, (rfl | rfl | rfl)⟩ | ⟨t, ht, rfl⟩ <;>
        simp only [gateParams, List.mem_singleton, List.not_mem_nil] at hx
      · exact Or.inr ⟨i, t, h3, hin, ht, hx⟩
      · exact Or.inr ⟨i, t, h3, hin, ht, hx⟩
    · simp [cswapGate, gateParams] at hx
    · simp [gateParams] at hx
  · rintro (rfl | ⟨i, t, h3, hin, ht, rfl⟩)
    · refine ⟨Gate.ry true 1 1, ?_, by simp [gateParams]⟩
      rw [mem_ansatzGates hn]
      exact Or.inl (by simp [baseGates])
    · refine ⟨Gate.ry true (n * (i - 1) + t) (n * (i - 1) + t + 1), ?_, by simp [gateParams]⟩
      rw [mem_ansatzGates hn]
      refine Or.inr (Or.inl ⟨i, h3, hin, ?_⟩)
      rw [mem_wGates]
      exact Or.inr (Or.inl ⟨t, ht, Or.inl rfl⟩)

lemma usedParams_eq {n : ℕ} (hn : 2 ≤ n) : usedParams n = targetParams n := by
  ext x
  rw [mem_usedParams hn]
  simp only [targetParams, Finset.mem_insert, Finset.mem_biUnion, Finset.mem_Icc,
    Finset.mem_Ico]
  constructor
  · rintro (rfl | ⟨i, t, h3, hin, ht, rfl⟩)
    · exact Or.inl rfl
    · exact Or.inr ⟨i, ⟨h3, hin⟩, Nat.le_add_right _ _, by omega⟩
  · rintro (rfl | ⟨i, ⟨h3, hin⟩, hlo, hhi⟩)
    · exact Or.inl rfl
    · refine Or.inr ⟨i, x - n * (i - 1), h3, hin, ?_, ?_⟩ <;> omega

/-- Sum of `i-1` over `i ∈ [3, n]`, in multiplied-through form. -/
lemma sum_pred_Icc (n : ℕ) (hn : 2 ≤ n) :
    2 * (∑ i in Finset.Icc 3 n, (i - 1)) = n * (n - 1) - 2 := by
  induction n, hn using Nat.le_induction with
  | base =>
    rw [Finset.Icc_eq_empty (by omega)]
    simp
  | succ n hn ih =>
    obtain ⟨m, rfl⟩ : ∃ m, n = m + 2 := ⟨n - 2, by omega⟩
    rw [Finset.sum_Icc_succ_top (by omega : 3 ≤ m + 2 + 1)]
    have IH := ih
    have e0 : m + 2 - 1 = m + 1 := rfl
    have e0' : m + 2 + 1 - 1 = m + 2 := rfl
    rw [e0'] at *
    rw [e0] at IH
    have e1 : (m + 3) * (m + 2) = (m + 2) * (m + 1) + 2 * (m + 2) := by ring
    have e2 : 2 * 1 ≤ (m + 2) * (m + 1) := Nat.mul_le_mul (by omega) (by omega)
    have e3 : m + 2 + 1 = m + 3 := rfl
    rw [e3]
    omega

lemma targetParams_card {n : ℕ} (hn : 2 ≤ n) :
    2 * (targetParams n).card = n * (n - 1) := by
  have hdisj : ∀ i ∈ Finset.Icc 3 n, ∀ j ∈ Finset.Icc 3 n, i ≠ j →
      Disjoint (Finset.Ico (n * (i - 1)) (n * (i - 1) + (i - 1)))
        (Finset.Ico (n * (j - 1)) (n * (j - 1) + (j - 1))) := by
    have key : ∀ i j, 3 ≤ i → i < j → j ≤ n →
        n * (i - 1) + (i - 1) ≤ n * (j - 1) := by
      intro i j h3 hij hjn
      have h1 : n * (i - 1 + 1) ≤ n * (j - 1) := Nat.mul_le_mul_left _ (by omega)
      rw [Nat.mul_succ] at h1
      omega
    intro i hi j hj hne
    simp only [Finset.mem_Icc] at hi hj
    rcases Nat.lt_or_ge i j with hij | hij
    · have := key i j hi.1 hij hj.2
      rw [Finset.disjoint_left]
      intro a ha1 ha2
      simp only [Finset.mem_Ico] at ha1 ha2
      omega
    · have hji : j < i := by omega
      have := key j i hj.1 hji hi.2
      rw [Finset.disjoint_left]
      intro a ha1 ha2
      simp only [Finset.mem_Ico] at ha1 ha2
      omega
  have hone : (1 : ℕ) ∉ (Finset.Icc 3 n).biUnion
      fun i => Finset.Ico (n * (i - 1)) (n * (i - 1) + (i - 1)) := by
    simp only [Finset.mem_biUnion, Finset.mem_Icc, Finset.mem_Ico, not_exists]
    rintro i ⟨⟨h3, hin⟩, hlo, hhi⟩
    have : 2 * 2 ≤ n * (i - 1) := Nat.mul_le_mul hn (by omega)
    omega
  rw [targetParams, Finset.card_insert_of_not_mem hone, Finset.card_biUnion hdisj]
  have hcards : ∀ i ∈ Finset.Icc 3 n,
      (Finset.Ico (n * (i - 1)) (n * (i - 1) + (i - 1))).card = i - 1 := by
    intro i _
    rw [Nat.card_Ico]
    omega
  have hsum : (∑ i in Finset.Icc 3 n,
        (Finset.Ico (n * (i - 1)) (n * (i - 1) + (i - 1))).card)
      = ∑ i in Finset.Icc 3 n, (i - 1) := Finset.sum_congr rfl hcards
  rw [hsum]
  have hs := sum_pred_Icc n hn
  have h2 : 2 * 1 ≤ n * (n - 1) := Nat.mul_le_mul hn (by omega)
  omega

lemma mem_cswapStageTriples {n k v p : ℕ} :
    (k, v, p) ∈ cswapStageTriples n ↔
      3 ≤ k ∧ k ≤ n ∧ 1 ≤ v ∧ v < k ∧ 1 ≤ p ∧ p < k := by
  simp only [cswapStageTriples, List.mem_flatMap, List.mem_map]
  constructor
  · rintro ⟨a, ha, b, hb, c, hc, heq⟩
    rw [List.mem_range'_1] at ha hb hc
    obtain ⟨rfl, rfl, rfl⟩ : a = k ∧ b = v ∧ c = p := by
      simpa [Prod.ext_iff] using heq
    exact ⟨ha.1, by omega, hb.1, by omega, hc.1, by omega⟩
  · rintro ⟨hk3, hkn, hv1, hvk, hp1, hpk⟩
    exact ⟨k, List.mem_range'_1.mpr ⟨hk3, by omega⟩, v, List.mem_range'_1.mpr ⟨hv1, by omega⟩,
      p, List.mem_range'_1.mpr ⟨hp1, by omega⟩, rfl⟩

lemma cswapStageTriples_nodup (n : ℕ) : (cswapStageTriples n).Nodup := by
  rw [cswapStageTriples, List.nodup_flatMap]
  constructor
  · intro k _
    rw [List.nodup_flatMap]
    constructor
    · intro v _
      refine List.Nodup.map ?_ (List.nodup_range' 1 (k - 1) 1 (by norm_num))
      intro a b hab
      simpa using hab
    · have hd : ∀ a b : ℕ, a ≠ b →
          (((List.range' 1 (k - 1)).map fun p => (k, a, p))).Disjoint
            ((List.range' 1 (k - 1)).map fun p => (k, b, p)) := by
        intro a b hab x hx1 hx2
        simp only [List.mem_map] at hx1 hx2
        obtain ⟨p1, _, rfl⟩ := hx1
        obtain ⟨p2, _, h2⟩ := hx2
        simp only [Prod.ext_iff] at h2
        exact hab h2.2.1.symm
      exact (List.nodup_range' 1 (k - 1) 1 (by norm_num)).imp (fun hab => hd _ _ hab)
  · have hd : ∀ a b : ℕ, a ≠ b →
        ((List.range' 1 (a - 1)).flatMap fun v =>
            (List.range' 1 (a - 1)).map fun p => (a, v, p)).Disjoint
          ((List.range' 1 (b - 1)).flatMap fun v =>
            (List.range' 1 (b - 1)).map fun p => (b, v, p)) := by
      intro a b hab x hx1 hx2
      simp only [List.mem_flatMap, List.mem_map] at hx1 hx2
      obtain ⟨v1, _, p1, _, rfl⟩ := hx1
      obtain ⟨v2, _, p2, _, h2⟩ := hx2
      simp only [Prod.ext_iff] at h2
      exact hab h2.1.symm
    exact (List.nodup_range' 3 (n - 2) 1 (by norm_num)).imp (fun hab => hd _ _ hab)

lemma swapGates_eq_map (n : ℕ) :
    swapGates n = (cswapStageTriples n).map fun t => cswapGate n t.1 t.2.1 t.2.2 := by
  simp only [swapGates, cswapStageTriples, List.map_flatMap, List.map_map]
  rfl

/-- C1, as stated in the spec, is false: for `n = 3` the Ansatz Builder
consumes 3 distinct parameter indices (`{1, 6, 7}`), not the declared
parameter-vector length `3^2 = 9`. -/
theorem claim1_counterexample : (usedParams 3).card = 3 ∧ (3 : ℕ) ≠ 3 ^ 2 := by decide

/-- C1 (amended): for every city count `n ≥ 3` the Ansatz Builder consumes
exactly `n*(n-1)/2` distinct free parameters (stated multiplied through:
`2 * card = n*(n-1)`), strictly fewer than the declared vector length `n^2`;
and no gate references a parameter index `≥ n^2`. -/
theorem claim1_param_count (n : ℕ) (hn : 3 ≤ n) :
    2 * (usedParams n).card = n * (n - 1) ∧ ∀ x ∈ usedParams n, x < n ^ 2 := by
  have hn2 : 2 ≤ n := by omega
  obtain ⟨hB, hC⟩ := nsq_facts hn2
  have hsq : n ^ 2 = n * n := pow_two n
  constructor
  · rw [usedParams_eq hn2]
    exact targetParams_card hn2
  · intro x hx
    rw [mem_usedParams hn2] at hx
    rcases hx with rfl | ⟨i, t, h3, hin, ht, rfl⟩
    · rw [hsq]; omega
    · have hA : n * (i - 1) ≤ n * (n - 1) := Nat.mul_le_mul_left _ (by omega)
      rw [hsq]; omega

/-- Witness for C1 (amended) at `n = 3`. -/
theorem claim1_witness : 2 * (usedParams 3).card = 3 * (3 - 1) ∧ (1 : ℕ) < 3 ^ 2 :=
  ⟨(claim1_param_count 3 (by norm_num)).1, (claim1_param_count 3 (by norm_num)).2 1 (by decide)⟩

/-- C2: the controlled-swap stage emits exactly one cswap per triple
`(k, v, p)` with `3 ≤ k ≤ n`, `1 ≤ v, p ≤ k-1` (the stage is the image of a
duplicate-free enumeration of those triples, in loop order), and for `n = 3`
there is exactly one stage `k = 3` with `v, p ∈ {1, 2}`, giving 4 cswaps. -/
theorem claim2_cswap_stage (n k v p : ℕ) :
    swapGates n = ((cswapStageTriples n).map fun t => cswapGate n t.1 t.2.1 t.2.2) ∧
    (cswapStageTriples n).Nodup ∧
    ((k, v, p) ∈ cswapStageTriples n ↔ 3 ≤ k ∧ k ≤ n ∧ 1 ≤ v ∧ v < k ∧ 1 ≤ p ∧ p < k) ∧
    cswapStageTriples 3 = [(3, 1, 1), (3, 1, 2), (3, 2, 1), (3, 2, 2)] ∧
    (swapGates 3).length = 4 :=
  ⟨swapGates_eq_map n, cswapStageTriples_nodup n, mem_cswapStageTriples, by decide, by decide⟩

/-- C3, as stated in the spec, is false: `n = 1` is positive, yet
construction fails — and only after the first gate `x(0)` has already been
emitted, when `ry(theta[1], 1)` references parameter index 1 and qubit 1 in
a size-1 register/vector. -/
theorem claim3_counterexample :
    buildAnsatz 1 = Except.error ([Gate.x 0], Gate.ry true 1 1) := by rfl

/-- C3 (amended): the builder performs no validation of `n`; for every
`n ≥ 2` construction runs to completion with no failure (pure index
arithmetic), while `n = 1` fails mid-emission and `n = 0` fails on its first
gate append — neither is an input-validation rejection. -/
theorem claim3_no_validation (n : ℕ) (hn : 2 ≤ n) :
    buildAnsatz n = Except.ok (ansatzGates n) := by
  rw [buildAnsatz, emitLoop_ok _ _ _ [] (all_gates_ok hn)]
  simp

/-- Witness for C3 (amended) at `n = 2`. -/
theorem claim3_witness : buildAnsatz 2 = Except.ok (ansatzGates 2) :=
  claim3_no_validation 2 (by norm_num)

/-- C7, as stated in the spec, is false: for `n = 3` the two copy-CNOTs of
the base block target qubits `3` and `4`, not the last two qubits
`3^2 - 2 = 7` and `3^2 - 1 = 8` of the `n^2`-qubit register. -/
theorem claim7_counterexample :
    ¬ ((ansatzGates 3).take 7 =
      [Gate.x 0, Gate.ry true 1 1, Gate.cz 0 1, Gate.ry false 1 1,
       Gate.cx 1 0, Gate.cx 1 (3 ^ 2 - 2), Gate.cx 0 (3 ^ 2 - 1)]) := by decide

/-- C7 (amended): for every `n`, the builder's first step emits exactly the
7-gate base block — one unconditional flip `x(0)`, the parameterized
rotation pair `ry(theta[1], 1) / ry(-theta[1], 1)` bracketing `cz(0, 1)`,
one CNOT `cx(1, 0)`, and two CNOTs copying the flip into qubits `n` and
`n+1` (the first two qubits of the second row, not the last two qubits of
the register). -/
theorem claim7_base_block (n : ℕ) :
    (ansatzGates n).take 7 =
      [Gate.x 0, Gate.ry true 1 1, Gate.cz 0 1, Gate.ry false 1 1,
       Gate.cx 1 0, Gate.cx 1 n, Gate.cx 0 (n + 1)] := by
  have h7 : (7 : ℕ) = (baseGates n).length := rfl
  rw [ansatzGates, List.append_assoc, List.append_assoc, h7, List.take_left]
  rfl

/-- C9: for every `n ≥ 3`, every gate emitted by the Ansatz Builder
addresses only qubit indices in `[0, n^2 - 1]` and has pairwise-distinct
qubit operands (in particular every cswap
`(n*(k-1)+v-1, n*(p-1)+n-(n-k)-1, n*(p-1)+v-1)`), so gate emission never
fails on an out-of-range or repeated operand. -/
theorem claim9_gate_safety (n : ℕ) (hn : 3 ≤ n) :
    ∀ g ∈ ansatzGates n, (∀ q ∈ gateQubits g, q < n ^ 2) ∧ (gateQubits g).Nodup := by
  intro g hg
  obtain ⟨h1, h2, _⟩ := gateOK_spec (all_gates_ok (by omega : 2 ≤ n) g hg)
  exact ⟨h1, h2⟩

/-- Witness for C9 at `n = 3` on the first emitted cswap `(6, 2, 0)`. -/
theorem claim9_witness :
    Gate.cswap 6 2 0 ∈ ansatzGates 3 ∧
      6 < 3 ^ 2 ∧ (gateQubits (Gate.cswap 6 2 0)).Nodup := by
  refine ⟨by decide, ?_, ?_⟩
  · exact (claim9_gate_safety 3 (by norm_num) (Gate.cswap 6 2 0) (by decide)).1 6 (by decide)
  · exact (claim9_gate_safety 3 (by norm_num) (Gate.cswap 6 2 0) (by decide)).2

end QRoute

namespace VarLoop

/-- The cost trace `cost_history_dict = {"prev_vector": None, "iters": 0,
"cost_history": []}`, with parameter vectors of type `α` and energy scalars
of type `β` (the scalar type is kept abstract so that any value the external
estimator can return — finite or not — is covered). -/
structure CostHistoryDict (α β : Type) where
  prev_vector : Option α
  iters : ℕ
  cost_history : List β
  deriving DecidableEq

/-- The freshly initialized cost trace. -/
def initDict {α β : Type} : CostHistoryDict α β :=
  { prev_vector := none, iters := 0, cost_history := [] }

/-- The mutation `cost_fn` performs on the trace after a successful
estimation: `iters += 1; prev_vector = params; cost_history.append(energy)`. -/
def costUpdate {α β : Type} (params : α) (energy : β) (t : CostHistoryDict α β) :
    CostHistoryDict α β :=
  { prev_vector := some params, iters := t.iters + 1,
    cost_history := t.cost_history ++ [energy] }

/-- The evaluation step `cost_fn(params, ansatz, hamiltonian, estimator)`:
it consults the external estimator exactly once for the bound
`(circuit, observable, params)` triple; if the estimator raises, the
exception propagates before any trace mutation; otherwise the returned
energy — whatever value it is — is recorded and returned unchanged. -/
def cost_fn {α β ε : Type} (estimator : α → Except ε β) (params : α)
    (t : CostHistoryDict α β) : Except ε (β × CostHistoryDict α β) :=
  match estimator params with
  | Except.error e => Except.error e
  | Except.ok energy => Except.ok (energy, costUpdate params energy t)

/-- A sequence of successful evaluation calls threaded through the trace,
one `(params, energy)` pair per minimizer callback. -/
def runCalls {α β : Type} (calls : List (α × β)) (t : CostHistoryDict α β) :
    CostHistoryDict α β :=
  calls.foldl (fun s c => costUpdate c.1 c.2 s) t

/-- The Ising notebook's driver loop `for b in range(len(b_list)): ...
minimize(cost_fn, ...)`: each run's calls mutate the shared module-level
trace, which is never reset between runs.  `globalStates runs t` lists the
trace value observed at the start of each run. -/
def globalStates {α β : Type} :
    List (List (α × β)) → CostHistoryDict α β → List (CostHistoryDict α β)
  | [], _ => []
  | r :: rs, t => t :: globalStates rs (runCalls r t)

lemma runCalls_append {α β : Type} (a b : List (α × β)) (t : CostHistoryDict α β) :
    runCalls (a ++ b) t = runCalls b (runCalls a t) :=
  List.foldl_append _ _ _ _

lemma runCalls_iters {α β : Type} :
    ∀ (calls : List (α × β)) (t : CostHistoryDict α β),
      (runCalls calls t).iters = t.iters + calls.length := by
  intro calls
  induction calls with
  | nil => intro t; rfl
  | cons c cs ih =>
    intro t
    show (runCalls cs (costUpdate c.1 c.2 t)).iters = t.iters + (cs.length + 1)
    rw [ih]
    simp [costUpdate]
    omega

lemma runCalls_hist {α β : Type} :
    ∀ (calls : List (α × β)) (t : CostHistoryDict α β),
      (runCalls calls t).cost_history = t.cost_history ++ calls.map Prod.snd := by
  intro calls
  induction calls with
  | nil => intro t; simp [runCalls]
  | cons c cs ih =>
    intro t
    show (runCalls cs (costUpdate c.1 c.2 t)).cost_history = _
    rw [ih]
    simp [costUpdate]

/-- C4: after any sequence of `k` successful evaluation calls on a freshly
initialized cost trace, the iteration counter equals `k`, the cost history
is exactly the `k` energies in call order, and the recorded parameter
vector is the one passed to the most recent call (`None` when no call was
made). -/
theorem claim4_cost_trace (calls : List (List ℚ × ℚ)) :
    (runCalls calls initDict).iters = calls.length ∧
    (runCalls calls initDict).cost_history = calls.map Prod.snd ∧
    (runCalls calls initDict).prev_vector = calls.getLast?.map Prod.fst := by
  refine ⟨?_, ?_, ?_⟩
  · rw [runCalls_iters]
    simp [initDict]
  · rw [runCalls_hist]
    simp [initDict]
  · rcases calls.eq_nil_or_concat with rfl | ⟨as, a, rfl⟩
    · rfl
    · simp only [List.concat_eq_append]
      rw [runCalls_append, List.getLast?_concat]
      rfl

/-- C5, as stated in the spec, is false: with two successive optimization
runs of one call each sharing the module-level trace, the trace observed at
the start of the second run has iteration counter 1 and a nonempty history,
not the fresh state. -/
theorem claim5_counterexample :
    ∃ s ∈ globalStates [[(([0] : List ℚ), (0 : ℚ))], [([0], 0)]] (@initDict (List ℚ) ℚ),
      ¬ (s.iters = 0 ∧ s.cost_history = []) := by
  refine ⟨costUpdate [0] 0 initDict, ?_, ?_⟩
  · have h : globalStates [[(([0] : List ℚ), (0 : ℚ))], [([0], 0)]] (@initDict (List ℚ) ℚ)
        = [initDict, costUpdate [0] 0 initDict] := rfl
    rw [h]
    simp
  · simp [costUpdate, initDict]

lemma globalStates_get {α β : Type} :
    ∀ (runs : List (List (α × β))) (t : CostHistoryDict α β) (j : ℕ), j < runs.length →
      (globalStates runs t)[j]? = some (runCalls ((runs.take j).flatten) t) := by
  intro runs
  induction runs with
  | nil => intro t j hj; simp at hj
  | cons r rs ih =>
    intro t j hj
    cases j with
    | zero =>
      show (t :: globalStates rs (runCalls r t))[0]? = _
      simp [runCalls]
    | succ j' =>
      have hj' : j' < rs.length := by simpa using hj
      show (t :: globalStates rs (runCalls r t))[j' + 1]? = _
      rw [List.getElem?_cons_succ, ih (runCalls r t) j' hj']
      congr 1
      rw [List.take_succ_cons, List.flatten_cons, runCalls_append]

/-- C5 (amended): the cost trace is mutated only by the evaluation step, but
it is module-level shared state that persists across runs of the Variational
Loop Driver: the trace at the start of run `j` carries all calls of runs
`0..j-1` — its counter is their total call count and its history their
concatenated energies — so only the first run starts from a zero counter and
empty history. -/
theorem claim5_trace_persistence (runs : List (List (List ℚ × ℚ))) (j : ℕ)
    (hj : j < runs.length) :
    (globalStates runs initDict)[j]? = some (runCalls ((runs.take j).flatten) initDict) ∧
    (runCalls ((runs.take j).flatten) initDict).iters = ((runs.take j).flatten).length ∧
    (runCalls ((runs.take j).flatten) initDict).cost_history
      = ((runs.take j).flatten).map Prod.snd := by
  refine ⟨globalStates_get runs initDict j hj, ?_, ?_⟩
  · rw [runCalls_iters]
    simp [initDict]
  · rw [runCalls_hist]
    simp [initDict]

/-- Witness for C5 (amended): two one-call runs, observed at the start of
the second run. -/
theorem claim5_witness :
    (globalStates [[(([1] : List ℚ), (2 : ℚ))], [([3], 4)]] (@initDict (List ℚ) ℚ))[1]?
      = some (runCalls (([[(([1] : List ℚ), (2 : ℚ))], [([3], 4)]].take 1).flatten) initDict) :=
  (claim5_trace_persistence [[([1], 2)], [([3], 4)]] 1 (by norm_num)).1

/-- C6: the evaluation step is transparent: an estimator failure propagates
to the minimizer unchanged (terminating the run, with no trace mutation),
and a returned value — finite or not, since `β` is arbitrary — is recorded
and returned to the minimizer exactly as received; the estimator is
consulted exactly once per call, with no retry and no default substitution. -/
theorem claim6_estimation_transparency {α β ε : Type} (estimator : α → Except ε β)
    (params : α) (t : CostHistoryDict α β) (e : ε) (v : β) :
    (estimator params = Except.error e → cost_fn estimator params t = Except.error e) ∧
    (estimator params = Except.ok v →
      cost_fn estimator params t = Except.ok (v, costUpdate params v t)) := by
  constructor <;> intro h <;> simp [cost_fn, h]

/-- Witness for C6 on a concrete successful estimation. -/
theorem claim6_witness :
    cost_fn (fun _ : List ℚ => (Except.ok (5 : ℚ) : Except Unit ℚ)) [1]
      (@initDict (List ℚ) ℚ)
      = Except.ok (5, costUpdate [1] 5 initDict) :=
  (claim6_estimation_transparency (fun _ : List ℚ => (Except.ok 5 : Except Unit ℚ))
    [1] initDict () 5).2 rfl

end VarLoop

namespace Ising

/-- Pauli `I` factor, as `SparsePauliOp` builds it (entries are exact
rationals in the source's integer-coefficient setting `J = 1`, integer `b`). -/
def pauliI : Matrix (Fin 2) (Fin 2) ℚ := !![1, 0; 0, 1]

/-- Pauli `X` factor. -/
def pauliX : Matrix (Fin 2) (Fin 2) ℚ := !![0, 1; 1, 0]

/-- Pauli `Z` factor. -/
def pauliZ : Matrix (Fin 2) (Fin 2) ℚ := !![1, 0; 0, -1]

/-- High bit of a 2-qubit basis index (`i / 2`), tabulated. -/
def hi2 : Fin 4 → Fin 2
  | 0 => 0
  | 1 => 0
  | 2 => 1
  | 3 => 1

/-- Low bit of a 2-qubit basis index (`i % 2`), tabulated. -/
def lo2 : Fin 4 → Fin 2
  | 0 => 0
  | 1 => 1
  | 2 => 0
  | 3 => 1

/-- Kronecker product of two one-qubit operators, giving the 4×4 matrix of a
two-character Pauli label (left character = qubit 1 = high bit). -/
def kron2 (A B : Matrix (Fin 2) (Fin 2) ℚ) : Matrix (Fin 4) (Fin 4) ℚ :=
  Matrix.of fun i j => A (hi2 i) (hi2 j) * B (lo2 i) (lo2 j)

/-- `observables[0] = SparsePauliOp("ZZ")`. -/
def obsZZ : Matrix (Fin 4) (Fin 4) ℚ := kron2 pauliZ pauliZ

/-- `observables[1] = SparsePauliOp("IX")`. -/
def obsIX : Matrix (Fin 4) (Fin 4) ℚ := kron2 pauliI pauliX

/-- `observables[2] = SparsePauliOp("XI")`. -/
def obsXI : Matrix (Fin 4) (Fin 4) ℚ := kron2 pauliX pauliI

/-- `Hamiltonian(J, b, observables) = -J*observables[0]
+ b*(observables[1] + observables[2])`. -/
def Hamiltonian (J b : ℚ) : Matrix (Fin 4) (Fin 4) ℚ :=
  (-J) • obsZZ + b • (obsIX + obsXI)

/-- The diagonal of `-ZZ`: the four basis energies of `Hamiltonian 1 0`. -/
def groundDiag : Fin 4 → ℚ := ![-1, 1, 1, -1]

/-- The ground state `|00⟩` of `-ZZ`. -/
def groundState : Fin 4 → ℂ := fun i => if i = 0 then 1 else 0

/-- `np.linspace(0, 4, 10)[i] = 4*i/9`: the field values the results plot
uses as x-coordinates. -/
def b_list (i : ℕ) : ℚ := 4 * i / 9

/-- The field-strength argument both loops actually pass to `Hamiltonian`:
the integer loop index `b` of `for b in range(len(b_list))`. -/
def loopField (i : ℕ) : ℚ := i

/-- The Hamiltonian built in iteration `i` of the classical benchmark loop
(`H = Hamiltonian(J, b, observables)` with `J = 1`, `b` the loop index). -/
def classicalLoopH (i : ℕ) : Matrix (Fin 4) (Fin 4) ℚ := Hamiltonian 1 (loopField i)

/-- The Hamiltonian built in iteration `i` of the quantum optimization loop
(same call, same arguments). -/
def quantumLoopH (i : ℕ) : Matrix (Fin 4) (Fin 4) ℚ := Hamiltonian 1 (loopField i)

lemma hamEq : Hamiltonian 1 0 = Matrix.diagonal groundDiag := by
  ext i j
  fin_cases i <;> fin_cases j <;>
    simp [Hamiltonian, obsZZ, obsIX, obsXI, kron2, pauliI, pauliX, pauliZ,
      hi2, lo2, Matrix.diagonal, groundDiag, Matrix.of_apply]

lemma expval_eq (v : Fin 4 → ℂ) :
    (∑ i, ∑ j, (starRingEnd ℂ) (v i) * ((Hamiltonian 1 0 i j : ℚ) : ℂ) * v j).re
      = -Complex.normSq (v 0) + Complex.normSq (v 1) + Complex.normSq (v 2)
        - Complex.normSq (v 3) := by
  rw [hamEq]
  simp [Fin.sum_univ_four, Matrix.diagonal_apply, groundDiag, Complex.normSq_apply,
    Complex.mul_re, Complex.mul_im, Complex.conj_re, Complex.conj_im]
  ring

lemma eigen_val {μ : ℂ} {v : Fin 4 → ℂ} (hv : v ≠ 0)
    (hmul : ((Hamiltonian 1 0).map (fun q => (q : ℂ))).mulVec v = μ • v) :
    μ = -1 ∨ μ = 1 := by
  have hd : (Hamiltonian 1 0).map (fun q => (q : ℂ))
      = Matrix.diagonal (fun i => (groundDiag i : ℂ)) := by
    rw [hamEq]
    exact Matrix.diagonal_map (by norm_num)
  rw [hd] at hmul
  obtain ⟨i, hi⟩ : ∃ i, v i ≠ 0 := by
    by_contra h
    push_neg at h
    exact hv (funext h)
  have hcomp := congrFun hmul i
  rw [Matrix.mulVec_diagonal] at hcomp
  have hμ : μ = (groundDiag i : ℂ) := by
    have h2 : ((groundDiag i : ℂ) - μ) * v i = 0 := by
      rw [sub_mul, hcomp]
      simp [Pi.smul_apply, smul_eq_mul]
    rcases mul_eq_zero.mp h2 with h3 | h3
    · exact (sub_eq_zero.mp h3).symm
    · exact absurd h3 hi
  fin_cases i <;> simp [groundDiag] at hμ <;> simp [hμ]

lemma eigen_neg_one :
    ∃ v : Fin 4 → ℂ, v ≠ 0 ∧
      ((Hamiltonian 1 0).map (fun q => (q : ℂ))).mulVec v = (-1 : ℂ) • v := by
  have hd : (Hamiltonian 1 0).map (fun q => (q : ℂ))
      = Matrix.diagonal (fun i => (groundDiag i : ℂ)) := by
    rw [hamEq]
    exact Matrix.diagonal_map (by norm_num)
  refine ⟨groundState, ?_, ?_⟩
  · intro h
    have h0 := congrFun h 0
    simp [groundState] at h0
  · rw [hd]
    funext i
    rw [Matrix.mulVec_diagonal]
    fin_cases i <;> simp [groundDiag, groundState]

lemma eigen_one :
    ∃ v : Fin 4 → ℂ, v ≠ 0 ∧
      ((Hamiltonian 1 0).map (fun q => (q : ℂ))).mulVec v = (1 : ℂ) • v := by
  have hd : (Hamiltonian 1 0).map (fun q => (q : ℂ))
      = Matrix.diagonal (fun i => (groundDiag i : ℂ)) := by
    rw [hamEq]
    exact Matrix.diagonal_map (by norm_num)
  refine ⟨fun i => if i = 1 then 1 else 0, ?_, ?_⟩
  · intro h
    have h0 := congrFun h 1
    simp at h0
  · rw [hd]
    funext i
    rw [Matrix.mulVec_diagonal]
    fin_cases i <;> simp [groundDiag]

lemma norm2_ground : (∑ i, Complex.normSq (groundState i)) = 1 := by
  simp [groundState, Fin.sum_univ_four]

lemma expval_ground :
    (∑ i, ∑ j, (starRingEnd ℂ) (groundState i) * ((Hamiltonian 1 0 i j : ℚ) : ℂ)
      * groundState j).re = -1 := by
  rw [expval_eq]
  simp [groundState]

lemma expval_lower (v : Fin 4 → ℂ) (hv : (∑ i, Complex.normSq (v i)) = 1) :
    (-1 : ℝ) ≤ (∑ i, ∑ j, (starRingEnd ℂ) (v i) * ((Hamiltonian 1 0 i j : ℚ) : ℂ) * v j).re := by
  rw [expval_eq]
  rw [Fin.sum_univ_four] at hv
  have h0 := Complex.normSq_nonneg (v 0)
  have h1 := Complex.normSq_nonneg (v 1)
  have h2 := Complex.normSq_nonneg (v 2)
  have h3 := Complex.normSq_nonneg (v 3)
  linarith

/-- C8: `Hamiltonian(1, 0, [ZZ, IX, XI]) = -ZZ = diag(-1, 1, 1, -1)`; its
(complex) eigenvalues are exactly `-1` and `1`, so the exact classical
ground-state energy is `-1`; and the ideal variational minimum over
normalized complex states equals `-1` — attained by `|00⟩`, hence within the
tolerance `1/100` of `-1` for a sufficiently expressive ansatz — while no
normalized state evaluates below `-1`. -/
theorem claim8_ground_energy :
    Hamiltonian 1 0 = Matrix.diagonal groundDiag ∧
    (∀ μ : ℂ, (∃ v : Fin 4 → ℂ, v ≠ 0 ∧
        ((Hamiltonian 1 0).map (fun q => (q : ℂ))).mulVec v = μ • v) ↔ (μ = -1 ∨ μ = 1)) ∧
    (∃ v : Fin 4 → ℂ, (∑ i, Complex.normSq (v i)) = 1 ∧
      (∑ i, ∑ j, (starRingEnd ℂ) (v i) * ((Hamiltonian 1 0 i j : ℚ) : ℂ) * v j).re = -1 ∧
      |(∑ i, ∑ j, (starRingEnd ℂ) (v i) * ((Hamiltonian 1 0 i j : ℚ) : ℂ) * v j).re
        - (-1)| ≤ 1 / 100) ∧
    (∀ v : Fin 4 → ℂ, (∑ i, Complex.normSq (v i)) = 1 →
      (-1 : ℝ) ≤ (∑ i, ∑ j, (starRingEnd ℂ) (v i) * ((Hamiltonian 1 0 i j : ℚ) : ℂ) * v j).re) := by
  refine ⟨hamEq, ?_, ?_, expval_lower⟩
  · intro μ
    constructor
    · rintro ⟨v, hv, hmul⟩
      exact eigen_val hv hmul
    · rintro (rfl | rfl)
      · exact eigen_neg_one
      · exact eigen_one
  · refine ⟨groundState, norm2_ground, expval_ground, ?_⟩
    rw [expval_ground]
    norm_num

/-- Witness for C8 at the concrete state `|00⟩`. -/
theorem claim8_witness :
    (∑ i, Complex.normSq (groundState i)) = 1 ∧
    (-1 : ℝ) ≤ (∑ i, ∑ j, (starRingEnd ℂ) (groundState i) * ((Hamiltonian 1 0 i j : ℚ) : ℂ)
      * groundState j).re :=
  ⟨norm2_ground, claim8_ground_energy.2.2.2 groundState norm2_ground⟩

/-- C10: for every loop position `i < 10`, both the classical benchmark loop
and the quantum optimization loop pass the integer loop index `i` itself as
the field-strength argument `b` of `Hamiltonian` (so the energies are
computed at field values `0, 1, ..., 9`), while the results plot uses
`b_list i = linspace(0,4,10)[i] = 4*i/9` as the x-coordinate; the two agree
only at index `0`. -/
theorem claim10_field_mismatch (i : ℕ) (hi : i < 10) :
    classicalLoopH i = Hamiltonian 1 (i : ℚ) ∧
    quantumLoopH i = Hamiltonian 1 (i : ℚ) ∧
    (loopField i = b_list i ↔ i = 0) := by
  refine ⟨rfl, rfl, ?_⟩
  unfold loopField b_list
  constructor
  · intro h
    have h9 : (i : ℚ) * 9 = 4 * i := by
      field_simp at h
      linarith
    have h5 : (i : ℚ) = 0 := by linarith
    exact_mod_cast h5
  · rintro rfl
    norm_num

/-- Witness for C10: at index 1 the loops use field value `1` while the plot
places the point at `4/9`; at index 0 the loop Hamiltonian agrees with the
integer-field evaluation. -/
theorem claim10_witness :
    loopField 1 ≠ b_list 1 ∧ classicalLoopH 0 = Hamiltonian 1 ((0 : ℕ) : ℚ) := by
  constructor
  · intro h
    exact one_ne_zero ((claim10_field_mismatch 1 (by norm_num)).2.2.mp h)
  · exact (claim10_field_mismatch 0 (by norm_num)).1

end Ising
